import Mathlib

/-!
Shallow embedding of the Go library `itertools` (package `itertools`, file
`itertools.go`, repository bruceadowns/goitertools) together with proofs of
the specification claims about it.

Modelling conventions:

* Go `int` is modelled as the unbounded `Int`; Go slices `[]int` as
  `List Int`; slice positions as `Nat`.  Returning the nil slice is
  modelled as returning `[]`.
* A nil Go function value (a `predicate func(int) bool` that is `nil`) is
  modelled by `Option (Int → Bool)`, `none` standing for nil.
* Bounded Go `for` loops become structural recursion.  The unbounded
  `for { ... }` loops of the three combinatorial generators (`Product`,
  `Permutations`, `Combinations`) advance a mutable index state until a
  termination test fires; they are embedded via the iteration combinator
  `iterRun`, supplied with a fuel argument that the correctness theorems
  prove sufficient (the proved enumerations are complete, so the fuel
  never truncates the loop).
-/

namespace Itertools

/-- One step of the Go loop in `Count`:
`for i := start; (step > 0 && i < stop) || (step < 0 && i > stop); i += step`.
The recursion terminates because `i` moves towards `stop` whenever the
loop condition holds. -/
def countLoop (stop step i : Int) : List Int :=
  if (0 < step ∧ i < stop) ∨ (step < 0 ∧ stop < i) then
    i :: countLoop stop step (i + step)
  else
    []
termination_by (if 0 < step then stop - i else i - stop).toNat
decreasing_by
  simp_wf
  split <;> omega

/-- Embedding of Go `Count(start, stop, step)`: an early return of nil when
`step*(stop-start) <= 0`, otherwise the loop collecting the values. -/
def Count (start stop step : Int) : List Int :=
  if step * (stop - start) ≤ 0 then [] else countLoop stop step start

/-- Embedding of Go `Compress(data, selectors)`: `n` is the length of the
shorter input, and the loop `for i := 0; i < n; i++` appends `data[i]`
whenever `selectors[i] > 0`. -/
def Compress (data selectors : List Int) : List Int :=
  (List.range (min data.length selectors.length)).foldl
    (fun acc i => if 0 < selectors.getD i 0 then acc ++ [data.getD i 0] else acc) []

/-- The `for _, v := range iterable` loop of Go `DropWhile` with its `drop`
flag: as long as `drop && predicate(v)` the element is skipped, otherwise
`drop` is set to false and the element kept. -/
def dropLoop (p : Int → Bool) : Bool → List Int → List Int
  | _, [] => []
  | drop, v :: vs =>
    if drop && p v then dropLoop p drop vs else v :: dropLoop p false vs

/-- Embedding of Go `DropWhile(predicate, iterable)`: when `predicate` is
nil the guarding `if predicate != nil` is skipped and the empty result is
returned. -/
def DropWhile (predicate : Option (Int → Bool)) (iterable : List Int) : List Int :=
  match predicate with
  | none => []
  | some p => dropLoop p true iterable

/-- Embedding of Go `TakeWhile(predicate, iterable)`: when `predicate` is
nil the guarding `if predicate != nil` is skipped and the empty result is
returned; otherwise elements are taken while the predicate holds (the Go
loop breaks at the first failure). -/
def TakeWhile (predicate : Option (Int → Bool)) (iterable : List Int) : List Int :=
  match predicate with
  | none => []
  | some p => iterable.takeWhile p

/-- Embedding of Go `IFilter(predicate, iterable)`: with a non-nil
predicate the loop keeps elements satisfying it, with a nil predicate the
loop keeps the elements `v` with `v > 0`. -/
def IFilter (predicate : Option (Int → Bool)) (iterable : List Int) : List Int :=
  match predicate with
  | some p => iterable.filter p
  | none => iterable.filter (fun v => decide (0 < v))

/-- Embedding of Go `IFilterFalse(predicate, iterable)`: with a non-nil
predicate the loop keeps elements falsifying it, with a nil predicate the
loop keeps the elements `v` with `!(v > 0)`. -/
def IFilterFalse (predicate : Option (Int → Bool)) (iterable : List Int) : List Int :=
  match predicate with
  | some p => iterable.filter (fun v => !(p v))
  | none => iterable.filter (fun v => !(decide (0 < v)))

/-- Embedding of Go `IZipLongest(fillvalue, iterables...)`: an empty
argument list returns nil; otherwise `size` is computed by scanning the
lengths starting from the first iterable (`if len(v) > size`), and tuple
`i` holds `v[i]` for each iterable long enough and `fillvalue` for the
others. -/
def IZipLongest (fillvalue : Int) (iterables : List (List Int)) : List (List Int) :=
  match iterables with
  | [] => []
  | v0 :: rest =>
    let size := rest.foldl (fun s v => if s < v.length then v.length else s) v0.length
    (List.range size).map (fun i =>
      (v0 :: rest).map (fun v => if i < v.length then v.getD i 0 else fillvalue))

/-- Fueled iteration of a state machine: emit the current state, advance
with `step`, stop when `step` signals exhaustion.  This is the common
shape of the three generator loops; each use supplies fuel proved to be at
least the number of emitted tuples, so the fuel bound is never the reason
the loop stops. -/
def iterRun {α β : Type} (step : α → Option α) (emit : α → β) : ℕ → α → List β
  | 0, _ => []
  | fuel + 1, s =>
    emit s ::
      (match step s with
       | none => []
       | some s2 => iterRun step emit fuel s2)

/-! ## Product -/

/-- The carry scan of Go `Product`: `for i := npools-1; i >= 0; i--`
increments `indices[i]`; on overflow (`indices[i] == len(pool)`) the index
is reset to 0 and the carry moves left, otherwise the scan stops with the
new index vector.  The scan is expressed by recursion on the pool list:
the tail (the faster-varying positions) is advanced first, and `none`
means the carry ran past the front, i.e. the enumeration is exhausted
(with all indices reset to 0, which the recursion materialises in the
parent frame). -/
def prodNext : List ℕ → List ℕ → Option (List ℕ)
  | L :: Ls, i :: is =>
    (match prodNext Ls is with
     | some is2 => some (i :: is2)
     | none => if i + 1 = L then none else some ((i + 1) :: List.replicate is.length 0))
  | _, _ => none

/-- The tuple Go `Product` emits for an index vector: `result[i] =
pools[i][indices[i]]`. -/
def prodEmit (pools : List (List Int)) (indices : List ℕ) : List Int :=
  (pools.zip indices).map (fun q => q.1.getD q.2 0)

/-- Embedding of Go `Product(args...)`: the initialisation loop returns
nil as soon as some pool is empty (and otherwise emits the tuple of first
elements, which is the first `iterRun` emission from the all-zero index
vector); the main loop then advances the mixed-radix counter. -/
def Product (args : List (List Int)) : List (List Int) :=
  if args.any List.isEmpty then []
  else
    iterRun (prodNext (args.map List.length)) (prodEmit args)
      ((args.map List.length).prod) (List.replicate args.length 0)

/-- Specification-side enumeration of all index vectors for pools of
lengths `lens`, in the mixed-radix order in which the first coordinate is
the most significant (varies slowest) and the last coordinate the least
significant (varies fastest). -/
def prodIdx : List ℕ → List (List ℕ)
  | [] => [[]]
  | L :: Ls => (List.range L).flatMap (fun i => (prodIdx Ls).map (i :: ·))

/-! ## Combinations -/

/-- The reset loop of Go `Combinations`:
`for j := i+1; j < r; j++ { indices[j] = indices[j-1] + 1 }` produces the
consecutive values `a+1, a+2, ...` after the freshly incremented value
`a`. -/
def resetTail : ℕ → ℕ → List ℕ
  | _, 0 => []
  | a, k + 1 => (a + 1) :: resetTail (a + 1) k

/-- One advance of Go `Combinations`: the scan
`for ; i >= 0 && indices[i] == i+n-r; i--` finds the rightmost position
not yet at its maximal value (`indices[i] == i + n - r`, written additively
as `indices[i] + r = i + n` with `r` the number of positions, so the test
does not use truncated subtraction), increments it and resets the
positions to its right; `none` means every position is maximal and the
enumeration is over.  Recursing into the tail first realises the
right-to-left scan: position `i` of the tail is position `i+1` of the
whole vector, and its test `indices[i+1] + r = (i+1) + n` is exactly the
tail's own test with the tail length `r - 1`. -/
def combNext (n : ℕ) : List ℕ → Option (List ℕ)
  | [] => none
  | x :: c =>
    (match combNext n c with
     | some c2 => some (x :: c2)
     | none =>
       if x + (c.length + 1) = n then none
       else some ((x + 1) :: resetTail (x + 1) c.length))

/-- Embedding of Go `Combinations(iterable, r)`: the degenerate guard
`r > n || r == 0`, the initial index vector `[0, 1, ..., r-1]`, the
advance loop, and the mapping of every emitted index vector through the
pool (`result[i] = pool[indices[i]]`). -/
def Combinations (iterable : List Int) (r : ℕ) : List (List Int) :=
  let pool := iterable
  let n := pool.length
  if r > n ∨ r = 0 then []
  else
    (iterRun (combNext n) (fun s => s) (n.choose r) (List.range r)).map
      (fun idxs => idxs.map (fun i => pool.getD i 0))

/-- Specification-side enumeration of the strictly increasing `r`-element
position vectors drawn from `[lo, n)`, in lexicographic order: first every
vector starting with `lo`, then the vectors over `[lo+1, n)`. -/
def combsFrom (n : ℕ) : ℕ → ℕ → List (List ℕ)
  | 0, _ => [[]]
  | r + 1, lo =>
    if lo < n then
      ((combsFrom n r (lo + 1)).map (lo :: ·)) ++ combsFrom n (r + 1) (lo + 1)
    else []
termination_by r lo => (n - lo, r)
decreasing_by
  · apply Prod.Lex.left
    omega
  · apply Prod.Lex.left
    omega

/-! ## Permutations -/

/-- The rotation Go `Permutations` performs when a cycle counter reaches
zero: `index := indices[i]; for j := i; j < n-1; j++ { indices[j] =
indices[j+1] }; indices[n-1] = index` rotates the suffix starting at
position `k` one place to the left. -/
def rotateLeftFrom (l : List ℕ) (k : ℕ) : List ℕ :=
  l.take k ++
    (match l.drop k with
     | [] => []
     | x :: xs => xs ++ [x])

/-- The swap Go `Permutations` performs on a successful advance:
`indices[i], indices[n-j] = indices[n-j], indices[i]` (both right-hand
sides read the old array). -/
def swapIdx (l : List ℕ) (a b : ℕ) : List ℕ :=
  (l.set a (l.getD b 0)).set b (l.getD a 0)

/-- The scan `for i := r-1; i >= 0; i--` of Go `Permutations`, expressed
on a segment of the cycle list: `k` is the absolute position of the head
of the segment `cs` inside the full cycle array, `n` the length of
`indices`.  The tail of the segment (the higher positions) is scanned
first; the returned Boolean tells whether some position advanced
successfully (Go's `break` out of the scan) or the carry ran past the
whole segment (Go's `i < 0` exit).  In both cases the possibly rotated
index array and updated cycle segment are returned, because a carrying
position mutates both (`indices` is rotated, `cycles[i]` is reset to
`n - i`) before the scan moves left. -/
def permScanSeg (n : ℕ) : ℕ → List ℕ → List ℕ → List ℕ × List ℕ × Bool
  | _, indices, [] => (indices, [], false)
  | k, indices, c :: cs =>
    match permScanSeg n (k + 1) indices cs with
    | (indices2, cs2, true) => (indices2, c :: cs2, true)
    | (indices2, cs2, false) =>
      let c2 := c - 1
      if c2 = 0 then (rotateLeftFrom indices2 k, (n - k) :: cs2, false)
      else (swapIdx indices2 k (n - c2), c2 :: cs2, true)

/-- One advance of Go `Permutations` on the state `(indices, cycles)`:
run the scan over the whole cycle array (positions `r-1` down to `0`);
`none` when the scan exits with `i < 0`, i.e. the enumeration is over. -/
def permStep (n : ℕ) (st : List ℕ × List ℕ) : Option (List ℕ × List ℕ) :=
  match permScanSeg n 0 st.1 st.2 with
  | (indices2, cycles2, true) => some (indices2, cycles2)
  | (_, _, false) => none

/-- The initial cycle array of Go `Permutations`: `cycles[i] = n - i` for
`i` in `[0, r)`. -/
def initCycles (m r : ℕ) : List ℕ :=
  (List.range r).map (fun i => m - i)

/-- Embedding of Go `Permutations(iterable, r)`: the degenerate guard
`r > n || r == 0`, the initial state `indices = [0, ..., n-1]`,
`cycles[i] = n - i`, the advance loop (the enclosing `for n > 0` is
equivalent to an unconditional loop here, since the guard forces
`n ≥ r ≥ 1`), and the mapping of every emitted length-`r` index prefix
through the pool. -/
def Permutations (iterable : List Int) (r : ℕ) : List (List Int) :=
  let pool := iterable
  let n := pool.length
  if r > n ∨ r = 0 then []
  else
    (iterRun (permStep n) (fun st => st.1.take st.2.length) (n.descFactorial r)
        (List.range n, initCycles n r)).map
      (fun idxs => idxs.map (fun i => pool.getD i 0))

/-- Specification-side enumeration of the injective `r`-element position
vectors drawn from the list `avail`, in the order in which the head runs
through `avail` from the front; for `avail` sorted this is lexicographic
order. -/
def perms : ℕ → List ℕ → List (List ℕ)
  | 0, _ => [[]]
  | r + 1, avail => avail.flatMap (fun x => (perms r (avail.erase x)).map (x :: ·))

/-- The elements of `avail` still unused after picking the vector `p`. -/
def restOf : List ℕ → List ℕ → List ℕ
  | avail, [] => avail
  | avail, x :: p => restOf (avail.erase x) p

/-- The cycle array Go `Permutations` holds right after emitting the
vector `p` drawn from `avail`: position by position, the counter is the
number of still unused elements not smaller than the chosen one. -/
def cyclesOf : List ℕ → List ℕ → List ℕ
  | _, [] => []
  | avail, x :: p => (avail.length - avail.indexOf x) :: cyclesOf (avail.erase x) p

/-! ## Sanity checks against the documented Go examples -/

example : Compress [1, 2, 3] [0, 1, 1] = [2, 3] := by decide
example : IFilter none [-2, -1, 0, 1, 2] = [1, 2] := by decide
example : IFilterFalse none [-2, -1, 0, 1, 2] = [-2, -1, 0] := by decide
example : IZipLongest 0 [[10, 20, 30], [1, 2]] = [[10, 1], [20, 2], [30, 0]] := by decide
example : Product [[1, 2], [3, 4]] = [[1, 3], [1, 4], [2, 3], [2, 4]] := by decide
example : Product [] = [[]] := by decide
example : Permutations [1, 2, 3] 3 =
    [[1, 2, 3], [1, 3, 2], [2, 1, 3], [2, 3, 1], [3, 1, 2], [3, 2, 1]] := by decide
example : Combinations [1, 2, 3, 4, 5] 4 =
    [[1, 2, 3, 4], [1, 2, 3, 5], [1, 2, 4, 5], [1, 3, 4, 5], [2, 3, 4, 5]] := by decide
example : Permutations [1, 2, 3, 4] 2 =
    [[1, 2], [1, 3], [1, 4], [2, 1], [2, 3], [2, 4], [3, 1], [3, 2], [3, 4],
     [4, 1], [4, 2], [4, 3]] := by decide
example : DropWhile (some (fun v => decide (v % 2 = 1))) [1, 3, 2, 4, 5, 7, 6, 8] =
    [2, 4, 5, 7, 6, 8] := by decide
example : TakeWhile (some (fun v => decide (v % 2 = 1))) [1, 3, 2, 4, 5, 7, 6, 8] =
    [1, 3] := by decide

/-! ## Generic lemmas about the iteration combinator -/

/-- If a list `L` is a chain under `step` (each element steps to the
next), its last element is exhausted, and the fuel covers its length,
then running the state machine from the head of `L` emits exactly the
images of `L`. -/
theorem iterRun_eq {α β : Type} (step : α → Option α) (emit : α → β) :
    ∀ (L : List α) (s : α) (fuel : ℕ),
      L.head? = some s →
      L.Chain' (fun a b => step a = some b) →
      (∀ x, L.getLast? = some x → step x = none) →
      L.length ≤ fuel →
      iterRun step emit fuel s = L.map emit := by
  intro L
  induction L with
  | nil => intro s fuel h; simp at h
  | cons a t ih =>
    intro s fuel hhead hchain hlast hfuel
    obtain rfl : s = a := by simpa using hhead.symm
    obtain ⟨fuel, rfl⟩ : ∃ f, fuel = f + 1 := by
      cases fuel with
      | zero => simp at hfuel
      | succ f => exact ⟨f, rfl⟩
    cases t with
    | nil =>
      have hstop : step s = none := hlast s (by simp)
      simp [iterRun, hstop]
    | cons b t' =>
      have hstep : step s = some b := (List.chain'_cons.mp hchain).1
      have hchain' : (b :: t').Chain' (fun a b => step a = some b) :=
        (List.chain'_cons.mp hchain).2
      have hlast' : ∀ x, (b :: t').getLast? = some x → step x = none := by
        intro x hx
        exact hlast x (by rw [List.getLast?_cons_cons]; exact hx)
      have := ih b fuel (by simp) hchain' hlast' (by simpa using hfuel)
      simp [iterRun, hstep, this]

/-- Chains over a concatenation of nonempty blocks: every block is a
chain, and the last element of each block steps to the head of the next
block. -/
theorem chain'_flatMap {α β : Type} (R : β → β → Prop) (l : List α) (f : α → List β)
    (hne : ∀ x ∈ l, f x ≠ [])
    (hblk : ∀ x ∈ l, (f x).Chain' R)
    (hlink : l.Chain' (fun x y => ∀ p q,
      (f x).getLast? = some p → (f y).head? = some q → R p q)) :
    (l.flatMap f).Chain' R := by
  induction l with
  | nil => simp
  | cons a t ih =>
    rw [List.flatMap_cons]
    rw [List.chain'_append]
    refine ⟨hblk a (by simp), ?_, ?_⟩
    · exact ih (fun x hx => hne x (by simp [hx])) (fun x hx => hblk x (by simp [hx]))
        (List.chain'_cons'.mp hlink).2
    · intro p hp q hq
      cases t with
      | nil => simp at hq
      | cons b t' =>
        have hbne : f b ≠ [] := hne b (by simp)
        have hq' : (f b).head? = some q := by
          rwa [List.flatMap_cons, List.head?_append_of_ne_nil _ hbne] at hq
        exact (List.chain'_cons.mp hlink).1 p q hp hq'

/-- The last element of a concatenation of nonempty blocks is the last
element of the last block. -/
theorem flatMap_getLast? {α β : Type} (l : List α) (f : α → List β)
    (hne : ∀ x ∈ l, f x ≠ []) :
    ∀ x, l.getLast? = some x → (l.flatMap f).getLast? = (f x).getLast? := by
  induction l with
  | nil => intro x hx; simp at hx
  | cons a t ih =>
    intro x hx
    cases t with
    | nil =>
      obtain rfl : a = x := by simpa using hx
      simp
    | cons b t' =>
      have hx' : (b :: t').getLast? = some x := by
        rwa [List.getLast?_cons_cons] at hx
      have htail : ((b :: t').flatMap f) ≠ [] := by
        intro hcon
        have : f b ≠ [] := hne b (by simp)
        rw [List.flatMap_cons] at hcon
        exact this (List.append_eq_nil.mp hcon).1
      rw [List.flatMap_cons, List.getLast?_append_of_ne_nil _ htail]
      exact ih (fun y hy => hne y (by simp [hy])) x hx'

/-- The head of a concatenation of blocks whose first block is nonempty. -/
theorem flatMap_head? {α β : Type} (l : List α) (f : α → List β) :
    ∀ x, l.head? = some x → f x ≠ [] → (l.flatMap f).head? = (f x).head? := by
  intro x hx hne
  cases l with
  | nil => simp at hx
  | cons a t =>
    obtain rfl : a = x := by simpa using hx
    rw [List.flatMap_cons, List.head?_append_of_ne_nil _ hne]

/-- Strict lexicographic comparison of lists over `<` never relates a
list to itself. -/
theorem lex_lt_irrefl : ∀ l : List ℕ, ¬ List.Lex (· < ·) l l := by
  intro l
  induction l with
  | nil => intro h; cases h
  | cons a t ih =>
    intro h
    cases h with
    | cons h => exact ih h
    | rel h => exact lt_irrefl a h

/-! ## C6: Count -/

/-- Every element of `countLoop` at position `k` is `i + k * step`. -/
theorem countLoop_getD (stop step : Int) :
    ∀ i : Int, ∀ k : ℕ, k < (countLoop stop step i).length →
      (countLoop stop step i).getD k 0 = i + k * step := by
  intro i
  induction i using countLoop.induct stop step with
  | case1 i hcond ih =>
    rw [countLoop, if_pos hcond]
    intro k hk
    cases k with
    | zero => simp
    | succ k =>
      have := ih k (by simpa using hk)
      simp only [List.getD_cons_succ, this]
      push_cast
      ring
  | case2 i hcond =>
    rw [countLoop, if_neg hcond]
    intro k hk
    simp at hk

/-- Membership in `countLoop`: exactly the arithmetic progression values
on the open side of `stop`. -/
theorem countLoop_mem (stop step : Int) :
    ∀ i : Int, ∀ x : Int, x ∈ countLoop stop step i ↔
      ∃ k : ℕ, x = i + k * step ∧
        ((0 < step ∧ x < stop) ∨ (step < 0 ∧ stop < x)) := by
  intro i
  induction i using countLoop.induct stop step with
  | case1 i hcond ih =>
    intro x
    rw [countLoop, if_pos hcond]
    constructor
    · intro hx
      rcases List.mem_cons.mp hx with rfl | hx'
      · refine ⟨0, by simp, ?_⟩
        rcases hcond with ⟨h1, h2⟩ | ⟨h1, h2⟩
        · exact Or.inl ⟨h1, h2⟩
        · exact Or.inr ⟨h1, h2⟩
      · obtain ⟨k, hk1, hk2⟩ := (ih x).mp hx'
        exact ⟨k + 1, by push_cast [hk1]; ring, hk2⟩
    · rintro ⟨k, hk1, hk2⟩
      cases k with
      | zero =>
        simp only [Nat.cast_zero, zero_mul, add_zero] at hk1
        simp [hk1]
      | succ k =>
        refine List.mem_cons_of_mem _ ((ih x).mpr ⟨k, ?_, hk2⟩)
        push_cast [hk1]
        ring
  | case2 i hcond =>
    intro x
    rw [countLoop, if_neg hcond]
    simp only [List.not_mem_nil, false_iff, not_exists, not_and]
    rintro k hk1 (⟨h1, h2⟩ | ⟨h1, h2⟩)
    · have hge : i ≤ x := by
        have : (0 : ℤ) ≤ (k : ℤ) * step := mul_nonneg (by positivity) h1.le
        linarith [hk1]
      have : ¬ i < stop := fun hlt => hcond (Or.inl ⟨h1, hlt⟩)
      linarith
    · have hle : x ≤ i := by
        have : (k : ℤ) * step ≤ 0 := mul_nonpos_of_nonneg_of_nonpos (by positivity) h1.le
        linarith [hk1]
      have : ¬ stop < i := fun hlt => hcond (Or.inr ⟨h1, hlt⟩)
      linarith

/-- C6: `Count start stop step` is the arithmetic progression
`start, start+step, start+2*step, ...` of all values of matching sign
strictly before `stop`; it is empty exactly when
`step * (stop - start) ≤ 0`; in particular `Count 1 10 1 = [1..9]` and
`Count 10 1 1 = []`. -/
theorem count_spec (start stop step : Int) :
    (∀ k : ℕ, k < (Count start stop step).length →
      (Count start stop step).getD k 0 = start + k * step) ∧
    (∀ x : Int, x ∈ Count start stop step ↔
      ∃ k : ℕ, x = start + k * step ∧
        ((0 < step ∧ x < stop) ∨ (step < 0 ∧ stop < x))) ∧
    (Count start stop step = [] ↔ step * (stop - start) ≤ 0) ∧
    Count 1 10 1 = [1, 2, 3, 4, 5, 6, 7, 8, 9] ∧
    Count 10 1 1 = [] := by
  refine ⟨?_, ?_, ⟨?_, ?_⟩, ?_, ?_⟩
  · intro k
    unfold Count
    split
    · simp
    · exact countLoop_getD stop step start k
  · intro x
    unfold Count
    split
    · rename_i hle
      simp only [List.not_mem_nil, false_iff, not_exists, not_and]
      rintro k hk1 (⟨h1, h2⟩ | ⟨h1, h2⟩)
      · have hss : stop - start ≤ 0 := by
          rcases lt_trichotomy (stop - start) 0 with h | h | h
          · exact h.le
          · exact h.le
          · nlinarith
        have : (0 : ℤ) ≤ (k : ℤ) * step := mul_nonneg (by positivity) h1.le
        linarith [hk1]
      · have hss : 0 ≤ stop - start := by
          rcases lt_trichotomy (stop - start) 0 with h | h | h
          · nlinarith
          · exact h.ge
          · exact h.le
        have : (k : ℤ) * step ≤ 0 := mul_nonpos_of_nonneg_of_nonpos (by positivity) h1.le
        linarith [hk1]
    · exact countLoop_mem stop step start x
  · intro hempty
    by_contra hgt
    push_neg at hgt
    have hcond : (0 < step ∧ start < stop) ∨ (step < 0 ∧ stop < start) := by
      rcases mul_pos_iff.mp hgt with ⟨h1, h2⟩ | ⟨h1, h2⟩
      · exact Or.inl ⟨h1, by linarith⟩
      · exact Or.inr ⟨by linarith, by linarith⟩
    rw [Count, if_neg (not_le.mpr hgt), countLoop, if_pos hcond] at hempty
    simp at hempty
  · intro hle
    rw [Count, if_pos hle]
  · simp [Count, countLoop]
  · simp [Count]

/-! ## C7: Compress -/

/-- Unfolding the conditional-append fold into a filter-and-map. -/
theorem foldl_append_filter {α β : Type} (p : α → Prop) [DecidablePred p] (f : α → β) :
    ∀ (l : List α) (acc : List β),
      l.foldl (fun a x => if p x then a ++ [f x] else a) acc
        = acc ++ (l.filter (fun x => decide (p x))).map f := by
  intro l
  induction l with
  | nil => intro acc; simp
  | cons x t ih =>
    intro acc
    by_cases hx : p x
    · simp [List.foldl_cons, if_pos hx, hx, ih]
    · simp [List.foldl_cons, if_neg hx, hx, ih]

/-- C7: `Compress` keeps, in order, exactly the entries `data[i]` with
`i` below the length of the shorter input whose selector is positive; in
particular `Compress [1,2,3] [0,1,1] = [2,3]`. -/
theorem compress_spec (data selectors : List Int) :
    Compress data selectors =
      ((List.range (min data.length selectors.length)).filter
        (fun i => decide (0 < selectors.getD i 0))).map (fun i => data.getD i 0) ∧
    Compress [1, 2, 3] [0, 1, 1] = [2, 3] := by
  constructor
  · rw [Compress, foldl_append_filter (fun i => 0 < selectors.getD i 0)
      (fun i => data.getD i 0) _ []]
    simp
  · decide

/-! ## C9: IFilter and IFilterFalse with a nil predicate -/

/-- C9: a nil predicate makes `IFilter` keep exactly the positive
elements in order, and `IFilterFalse` exactly the non-positive ones, the
same behaviour as passing the test `v > 0` explicitly. -/
theorem ifilter_nil_default (s : List Int) :
    IFilter none s = s.filter (fun v => decide (0 < v)) ∧
    IFilter none s = IFilter (some (fun v => decide (0 < v))) s ∧
    IFilterFalse none s = s.filter (fun v => decide (v ≤ 0)) ∧
    IFilterFalse none s = IFilterFalse (some (fun v => decide (0 < v))) s ∧
    (∀ x ∈ IFilter none s, 0 < x) ∧
    (∀ x ∈ IFilterFalse none s, x ≤ 0) := by
  refine ⟨rfl, rfl, ?_, rfl, ?_, ?_⟩
  · unfold IFilterFalse
    apply List.filter_congr
    intro x _
    by_cases h : 0 < x
    · simp [h, not_le.mpr h]
    · simp [h, not_lt.mp h]
  · intro x hx
    unfold IFilter at hx
    simpa using (List.mem_filter.mp hx).2
  · intro x hx
    unfold IFilterFalse at hx
    have := (List.mem_filter.mp hx).2
    simpa [not_lt] using this

/-! ## C10: DropWhile and TakeWhile with a nil predicate -/

/-- C10: with a nil predicate both `DropWhile` and `TakeWhile` return the
empty sequence; in particular `DropWhile nil s` is not `s` itself for
nonempty `s`. -/
theorem dropwhile_takewhile_nil (s : List Int) :
    DropWhile none s = [] ∧ TakeWhile none s = [] ∧
    DropWhile none [1] ≠ ([1] : List Int) := by
  exact ⟨rfl, rfl, by decide⟩

/-! ## C8: IZipLongest -/

/-- Reading a mapped list at a position below its length. -/
theorem getD_map_of_lt {α β : Type} (g : α → β) :
    ∀ (l : List α) (j : ℕ), j < l.length → ∀ (d : β) (d' : α),
      (l.map g).getD j d = g (l.getD j d') := by
  intro l
  induction l with
  | nil => intro j h; simp at h
  | cons a t ih =>
    intro j h d d'
    cases j with
    | zero => simp
    | succ j => simpa using ih j (by simpa using h) d d'

/-- Reading `List.range` below its length. -/
theorem getD_range_of_lt (n i : ℕ) (h : i < n) : (List.range n).getD i 0 = i := by
  rw [List.getD_eq_getElem _ _ (by simpa using h)]
  simp

/-- The size scan of `IZipLongest` computes the maximum of all lengths. -/
theorem foldl_size_eq_max (rest : List (List Int)) :
    ∀ a : ℕ, rest.foldl (fun s v => if s < v.length then v.length else s) a
      = max a ((rest.map List.length).foldr max 0) := by
  induction rest with
  | nil => intro a; simp
  | cons v t ih =>
    intro a
    simp only [List.foldl_cons, List.map_cons, List.foldr_cons]
    rw [ih]
    have hmax : (if a < v.length then v.length else a) = max a v.length := by
      split <;> omega
    rw [hmax, max_assoc]

/-- C8: for a nonempty family of inputs, `IZipLongest` produces as many
tuples as the longest input has elements; tuple `i` has one component per
input, holding that input's element `i` when it exists and the fill value
otherwise. -/
theorem izip_longest_spec (fill : Int) (its : List (List Int)) (h : its ≠ []) :
    (IZipLongest fill its).length = (its.map List.length).foldr max 0 ∧
    (∀ i, i < (IZipLongest fill its).length →
      ((IZipLongest fill its).getD i []).length = its.length) ∧
    (∀ i j, i < (IZipLongest fill its).length → j < its.length →
      ((IZipLongest fill its).getD i []).getD j 0 =
        (if i < (its.getD j []).length then (its.getD j []).getD i 0 else fill)) := by
  obtain ⟨v0, rest, rfl⟩ : ∃ v0 rest, its = v0 :: rest := by
    cases its with
    | nil => exact absurd rfl h
    | cons a t => exact ⟨a, t, rfl⟩
  have hsize : (rest.foldl (fun s v => if s < v.length then v.length else s) v0.length)
      = ((v0 :: rest).map List.length).foldr max 0 := by
    rw [foldl_size_eq_max]
    simp
  have hlen : (IZipLongest fill (v0 :: rest)).length
      = ((v0 :: rest).map List.length).foldr max 0 := by
    rw [IZipLongest]
    simpa using hsize
  refine ⟨hlen, ?_, ?_⟩
  · intro i hi
    rw [IZipLongest] at hi ⊢
    simp only [List.length_map, List.length_range] at hi
    rw [getD_map_of_lt _ _ _ (by simpa using hi) _ 0]
    simp
  · intro i j hi hj
    rw [IZipLongest] at hi ⊢
    simp only [List.length_map, List.length_range] at hi
    rw [getD_map_of_lt _ _ _ (by simpa using hi) _ 0,
      getD_range_of_lt _ _ hi,
      getD_map_of_lt _ _ _ (by simpa using hj) _ []]

/-! ## C3, C4: Product -/

/-- An element named by `getLast?` is a member. -/
theorem mem_of_getLast?_eq {α : Type} {l : List α} {a : α}
    (h : l.getLast? = some a) : a ∈ l := by
  obtain ⟨hne, rfl⟩ := List.mem_getLast?_eq_getLast h
  exact List.getLast_mem hne

/-- Length of a concatenation of equal-length blocks. -/
theorem length_flatMap_const {α β : Type} (f : α → List β) (c : ℕ) :
    ∀ l : List α, (∀ x ∈ l, (f x).length = c) → (l.flatMap f).length = l.length * c := by
  intro l
  induction l with
  | nil => simp
  | cons a t ih =>
    intro h
    rw [List.flatMap_cons, List.length_append, h a (by simp),
      ih (fun x hx => h x (by simp [hx]))]
    simp [Nat.succ_mul, Nat.add_comm]

/-- Every index vector enumerated for `lens` has one position per pool. -/
theorem prodIdx_mem_length :
    ∀ (lens : List ℕ) (p : List ℕ), p ∈ prodIdx lens → p.length = lens.length := by
  intro lens
  induction lens with
  | nil =>
    intro p hp
    simp only [prodIdx, List.mem_singleton] at hp
    simp [hp]
  | cons L Ls ih =>
    intro p hp
    rw [prodIdx, List.mem_flatMap] at hp
    obtain ⟨i, _, hp⟩ := hp
    rw [List.mem_map] at hp
    obtain ⟨c, hc, rfl⟩ := hp
    simp [ih c hc]

/-- The enumeration for `lens` has exactly `lens.prod` index vectors. -/
theorem prodIdx_length : ∀ lens : List ℕ, (prodIdx lens).length = lens.prod := by
  intro lens
  induction lens with
  | nil => simp [prodIdx]
  | cons L Ls ih =>
    rw [prodIdx, length_flatMap_const _ (prodIdx Ls).length _ (fun x _ => by simp),
      List.length_range, ih, List.prod_cons]

/-- With positive lengths the enumeration is nonempty. -/
theorem prodIdx_ne_nil (lens : List ℕ) (hpos : ∀ L ∈ lens, 0 < L) :
    prodIdx lens ≠ [] := by
  have : 0 < (prodIdx lens).length := by
    rw [prodIdx_length]
    exact List.prod_pos hpos
  exact List.length_pos.mp this

/-- With positive lengths the first index vector is all zeros. -/
theorem prodIdx_head? :
    ∀ lens : List ℕ, (∀ L ∈ lens, 0 < L) →
      (prodIdx lens).head? = some (List.replicate lens.length 0) := by
  intro lens
  induction lens with
  | nil => intro _; simp [prodIdx]
  | cons L Ls ih =>
    intro hpos
    have hL : 0 < L := hpos L (by simp)
    have hsub := ih (fun x hx => hpos x (by simp [hx]))
    obtain ⟨K, rfl⟩ := Nat.exists_eq_succ_of_ne_zero hL.ne'
    have hrange : (List.range (K + 1)).head? = some 0 := by
      rw [List.range_succ_eq_map]; rfl
    have hne : (prodIdx Ls).map (0 :: ·) ≠ [] := by
      simpa using prodIdx_ne_nil Ls (fun x hx => hpos x (by simp [hx]))
    rw [prodIdx, flatMap_head? _ _ 0 hrange hne, List.head?_map, hsub]
    simp [List.replicate_succ]

/-- The last enumerated index vector is exhausted: the carry runs past
the front. -/
theorem prodIdx_last_none :
    ∀ (lens : List ℕ) (p : List ℕ),
      (prodIdx lens).getLast? = some p → prodNext lens p = none := by
  intro lens
  induction lens with
  | nil =>
    intro p hp
    obtain rfl : p = [] := by simpa [prodIdx] using hp
    rfl
  | cons L Ls ih =>
    intro p hp
    by_cases hsub : prodIdx Ls = []
    · rw [prodIdx, hsub] at hp
      rw [show ((List.range L).flatMap fun i => List.map (i :: ·) ([] : List (List ℕ))) = [] by
        simp] at hp
      simp at hp
    · cases L with
      | zero => rw [prodIdx] at hp; simp at hp
      | succ K =>
        have hne : ∀ i ∈ List.range (K + 1), (prodIdx Ls).map (i :: ·) ≠ [] := by
          intro i _
          simpa using hsub
        have hrlast : (List.range (K + 1)).getLast? = some K := by
          rw [List.range_succ, List.getLast?_append_of_ne_nil _ (by simp)]
          rfl
        rw [prodIdx] at hp
        rw [flatMap_getLast? _ _ hne K hrlast, List.getLast?_map] at hp
        obtain ⟨pL, hpL, rfl⟩ : ∃ pL, (prodIdx Ls).getLast? = some pL ∧ p = K :: pL := by
          cases hl : (prodIdx Ls).getLast? with
          | none => rw [hl] at hp; simp at hp
          | some x =>
            rw [hl] at hp
            exact ⟨x, rfl, by simpa using hp.symm⟩
        show prodNext ((K + 1) :: Ls) (K :: pL) = none
        have hnone := ih pL hpL
        simp [prodNext, hnone]

/-- The enumerated index vectors form a chain under the odometer
advance. -/
theorem prodIdx_chain :
    ∀ lens : List ℕ, (∀ L ∈ lens, 0 < L) →
      (prodIdx lens).Chain' (fun a b => prodNext lens a = some b) := by
  intro lens
  induction lens with
  | nil => intro _; exact List.chain'_singleton _
  | cons L Ls ih =>
    intro hpos
    have hposs : ∀ x ∈ Ls, 0 < x := fun x hx => hpos x (by simp [hx])
    have hsubne : prodIdx Ls ≠ [] := prodIdx_ne_nil Ls hposs
    rw [prodIdx]
    apply chain'_flatMap
    · intro i _
      simpa using hsubne
    · intro i _
      rw [List.chain'_map]
      exact (ih hposs).imp (fun {a b} hab => by rw [prodNext, hab])
    · rw [List.chain'_iff_get]
      intro i hi
      simp only [List.length_range] at hi
      intro p q hp hq
      rw [List.get_eq_getElem, List.getElem_range] at hp hq
      rw [List.getLast?_map] at hp
      obtain ⟨pL, hpL, rfl⟩ : ∃ pL, (prodIdx Ls).getLast? = some pL ∧ p = i :: pL := by
        cases hl : (prodIdx Ls).getLast? with
        | none => rw [hl] at hp; simp at hp
        | some x =>
          rw [hl] at hp
          exact ⟨x, rfl, by simpa using hp.symm⟩
      rw [List.head?_map, prodIdx_head? Ls hposs] at hq
      obtain rfl : q = (i + 1) :: List.replicate Ls.length 0 := by simpa using hq.symm
      have hlenp : pL.length = Ls.length :=
        prodIdx_mem_length Ls pL (mem_of_getLast?_eq hpL)
      rw [prodNext, prodIdx_last_none Ls pL hpL]
      have : i + 1 ≠ L := by omega
      simp [this, hlenp]

/-- Membership in the enumeration is exactly componentwise boundedness. -/
theorem prodIdx_mem_iff :
    ∀ (lens p : List ℕ), p ∈ prodIdx lens ↔ List.Forall₂ (· < ·) p lens := by
  intro lens
  induction lens with
  | nil =>
    intro p
    simp [prodIdx, List.forall₂_nil_right_iff]
  | cons L Ls ih =>
    intro p
    rw [prodIdx, List.mem_flatMap]
    constructor
    · rintro ⟨i, hi, hp⟩
      rw [List.mem_map] at hp
      obtain ⟨c, hc, rfl⟩ := hp
      exact List.forall₂_cons.mpr ⟨List.mem_range.mp hi, (ih c).mp hc⟩
    · intro hp
      rw [List.forall₂_cons_right_iff] at hp
      obtain ⟨i, c, hiL, hc, rfl⟩ := hp
      exact ⟨i, List.mem_range.mpr hiL, List.mem_map.mpr ⟨c, (ih c).mpr hc, rfl⟩⟩

/-- The enumeration is strictly increasing in lexicographic order (first
coordinate most significant): the odometer counts upwards. -/
theorem prodIdx_pairwise :
    ∀ lens : List ℕ, (prodIdx lens).Pairwise (List.Lex (· < ·)) := by
  intro lens
  induction lens with
  | nil => simp [prodIdx]
  | cons L Ls ih =>
    rw [prodIdx, List.flatMap_def, List.pairwise_flatten]
    constructor
    · intro bl hbl
      rw [List.mem_map] at hbl
      obtain ⟨i, _, rfl⟩ := hbl
      rw [List.pairwise_map]
      exact ih.imp (fun {a b} hab => List.Lex.cons hab)
    · rw [List.pairwise_map]
      apply (List.pairwise_lt_range L).imp
      intro i j hij
      intro x hx y hy
      rw [List.mem_map] at hx hy
      obtain ⟨a, _, rfl⟩ := hx
      obtain ⟨b, _, rfl⟩ := hy
      exact List.Lex.rel hij

/-- No index vector repeats. -/
theorem prodIdx_nodup (lens : List ℕ) : (prodIdx lens).Nodup := by
  refine (prodIdx_pairwise lens).imp ?_
  intro a b hab heq
  exact lex_lt_irrefl b (heq ▸ hab)

/-- Length of an emitted product tuple. -/
theorem prodEmit_length (pools : List (List Int)) (p : List ℕ) :
    (prodEmit pools p).length = min pools.length p.length := by
  simp [prodEmit]

/-- Components of an emitted product tuple. -/
theorem prodEmit_getD :
    ∀ (pools : List (List Int)) (p : List ℕ) (j : ℕ),
      j < pools.length → j < p.length →
      (prodEmit pools p).getD j 0 = (pools.getD j []).getD (p.getD j 0) 0 := by
  intro pools
  induction pools with
  | nil => intro p j h; simp at h
  | cons A As ih =>
    intro p j h1 h2
    cases p with
    | nil => simp at h2
    | cons i is =>
      cases j with
      | zero => simp [prodEmit]
      | succ j =>
        have := ih is j (by simpa using h1) (by simpa using h2)
        simpa [prodEmit] using this

/-- C3: for at least one pool, `Product` emits exactly the product of the
pool lengths many tuples (zero when some pool is empty); in the nonempty
case the result is the image of the complete, duplicate-free,
lexicographically ordered list of index vectors (the mixed-radix odometer
order: the last coordinate varies fastest, the first slowest), each tuple
choosing one element from each pool. -/
theorem product_spec (args : List (List Int)) (_h : args ≠ []) :
    (Product args).length = (args.map List.length).prod ∧
    (args.any List.isEmpty = true → Product args = []) ∧
    (args.any List.isEmpty = false →
      ∃ S : List (List ℕ),
        Product args = S.map (prodEmit args) ∧
        S.length = (args.map List.length).prod ∧
        (∀ p : List ℕ, p ∈ S ↔ List.Forall₂ (· < ·) p (args.map List.length)) ∧
        S.Nodup ∧
        S.Pairwise (List.Lex (· < ·)) ∧
        (∀ p ∈ S, (prodEmit args p).length = args.length ∧
          ∀ j, j < args.length →
            (prodEmit args p).getD j 0 = (args.getD j []).getD (p.getD j 0) 0)) := by
  by_cases hany : args.any List.isEmpty
  · have hzero : (args.map List.length).prod = 0 := by
      rw [List.any_eq_true] at hany
      obtain ⟨a, ha, hae⟩ := hany
      apply List.prod_eq_zero
      rw [List.mem_map]
      exact ⟨a, ha, by simpa [List.isEmpty_iff] using hae⟩
    rw [Product, if_pos hany]
    exact ⟨by simp [hzero], fun _ => rfl, fun hc => absurd hany (by rw [hc]; simp)⟩
  · have hpos : ∀ L ∈ args.map List.length, 0 < L := by
      intro L hL
      rw [List.mem_map] at hL
      obtain ⟨a, ha, rfl⟩ := hL
      have : ¬ a.isEmpty := by
        intro hae
        exact hany (List.any_eq_true.mpr ⟨a, ha, hae⟩)
      rw [List.isEmpty_iff] at this
      exact List.length_pos.mpr this
    have hrun : Product args = (prodIdx (args.map List.length)).map (prodEmit args) := by
      rw [Product, if_neg hany]
      apply iterRun_eq
      · have := prodIdx_head? (args.map List.length) hpos
        simpa using this
      · exact prodIdx_chain (args.map List.length) hpos
      · exact prodIdx_last_none (args.map List.length)
      · rw [prodIdx_length]
    refine ⟨?_, fun hc => absurd hc hany, fun _ => ?_⟩
    · rw [hrun, List.length_map, prodIdx_length]
    · refine ⟨prodIdx (args.map List.length), hrun, by rw [prodIdx_length],
        fun p => prodIdx_mem_iff _ p, prodIdx_nodup _, prodIdx_pairwise _, ?_⟩
      intro p hp
      have hlen : p.length = args.length := by
        have := prodIdx_mem_length _ p hp
        simpa using this
      refine ⟨by rw [prodEmit_length, hlen]; simp, ?_⟩
      intro j hj
      exact prodEmit_getD args p j hj (by omega)

/-- C4: `Product` applied to zero pools returns exactly one tuple, the
empty tuple. -/
theorem product_no_pools : Product [] = [[]] := by decide

/-! ## C2, C5: Combinations -/

/-- The reset loop produces consecutive values. -/
theorem resetTail_eq_range' : ∀ (k a : ℕ), resetTail a k = List.range' (a + 1) k := by
  intro k
  induction k with
  | zero => intro a; rfl
  | succ k ih =>
    intro a
    rw [resetTail, List.range'_succ, ih (a + 1)]

/-- Emptiness of the combination enumeration. -/
theorem combsFrom_eq_nil_iff (n : ℕ) :
    ∀ (r lo : ℕ), (combsFrom n r lo = [] ↔ (0 < r ∧ n < lo + r)) := by
  intro r lo
  induction r, lo using combsFrom.induct n with
  | case1 lo => simp [combsFrom]
  | case2 r lo hlo ih1 ih2 =>
    rw [combsFrom, if_pos hlo, List.append_eq_nil, List.map_eq_nil_iff, ih1, ih2]
    omega
  | case3 r lo hlo =>
    rw [combsFrom, if_neg hlo]
    simp only [true_iff]
    omega

/-- Members of the combination enumeration: length-`r`, strictly
increasing, within `[lo, n)`. -/
theorem combsFrom_mem (n : ℕ) :
    ∀ (r lo : ℕ) (p : List ℕ), p ∈ combsFrom n r lo →
      p.length = r ∧ p.Sorted (· < ·) ∧ ∀ a ∈ p, lo ≤ a ∧ a < n := by
  intro r lo
  induction r, lo using combsFrom.induct n with
  | case1 lo =>
    intro p hp
    obtain rfl : p = [] := by simpa [combsFrom] using hp
    refine ⟨rfl, List.sorted_nil, by simp⟩
  | case2 r lo hlo ih1 ih2 =>
    intro p hp
    rw [combsFrom, if_pos hlo, List.mem_append] at hp
    rcases hp with hp | hp
    · rw [List.mem_map] at hp
      obtain ⟨c, hc, rfl⟩ := hp
      obtain ⟨hlen, hsort, hbnd⟩ := ih1 c hc
      refine ⟨by simp [hlen], ?_, ?_⟩
      · rw [List.sorted_cons]
        exact ⟨fun b hb => by have := (hbnd b hb).1; omega, hsort⟩
      · intro a ha
        rcases List.mem_cons.mp ha with rfl | ha
        · exact ⟨le_refl _, hlo⟩
        · have := hbnd a ha
          omega
    · obtain ⟨hlen, hsort, hbnd⟩ := ih2 p hp
      refine ⟨hlen, hsort, fun a ha => ?_⟩
      have := hbnd a ha
      omega
  | case3 r lo hlo =>
    intro p hp
    rw [combsFrom, if_neg hlo] at hp
    simp at hp

/-- Counting: `C(n - lo, r)` combinations from `[lo, n)`. -/
theorem combsFrom_length (n : ℕ) :
    ∀ (r lo : ℕ), (combsFrom n r lo).length = (n - lo).choose r := by
  intro r lo
  induction r, lo using combsFrom.induct n with
  | case1 lo => simp [combsFrom]
  | case2 r lo hlo ih1 ih2 =>
    rw [combsFrom, if_pos hlo, List.length_append, List.length_map, ih1, ih2]
    have heq : n - lo = (n - (lo + 1)) + 1 := by omega
    rw [heq, Nat.choose_succ_succ]
  | case3 r lo hlo =>
    rw [combsFrom, if_neg hlo]
    have heq : n - lo = 0 := by omega
    simp [heq]

/-- The first combination from `[lo, n)` is the consecutive run at
`lo`. -/
theorem combsFrom_head? (n : ℕ) :
    ∀ (r lo : ℕ), lo + r ≤ n → (combsFrom n r lo).head? = some (List.range' lo r) := by
  intro r lo
  induction r, lo using combsFrom.induct n with
  | case1 lo => intro _; simp [combsFrom]
  | case2 r lo hlo ih1 ih2 =>
    intro hle
    rw [combsFrom, if_pos hlo]
    have hA : (combsFrom n r (lo + 1)).map (lo :: ·) ≠ [] := by
      rw [Ne, List.map_eq_nil_iff, combsFrom_eq_nil_iff]
      omega
    rw [List.head?_append_of_ne_nil _ hA, List.head?_map, ih1 (by omega),
      List.range'_succ]
    rfl
  | case3 r lo hlo =>
    intro hle
    exact absurd (by omega : lo < n) hlo

/-- The last combination is exhausted: the scan finds every position at
its maximum. -/
theorem combsFrom_last_none (n : ℕ) :
    ∀ (r lo : ℕ) (p : List ℕ), (combsFrom n r lo).getLast? = some p →
      combNext n p = none := by
  intro r lo
  induction r, lo using combsFrom.induct n with
  | case1 lo =>
    intro p hp
    obtain rfl : p = [] := by simpa [combsFrom] using hp
    rfl
  | case2 r lo hlo ih1 ih2 =>
    intro p hp
    rw [combsFrom, if_pos hlo] at hp
    by_cases hB : combsFrom n (r + 1) (lo + 1) = []
    · rw [hB, List.append_nil, List.getLast?_map] at hp
      obtain ⟨cL, hcL, rfl⟩ :
          ∃ cL, (combsFrom n r (lo + 1)).getLast? = some cL ∧ p = lo :: cL := by
        cases hl : (combsFrom n r (lo + 1)).getLast? with
        | none => rw [hl] at hp; simp at hp
        | some x => rw [hl] at hp; exact ⟨x, rfl, by simpa using hp.symm⟩
      have hsubnone := ih1 cL hcL
      have hlen : cL.length = r := (combsFrom_mem n r (lo + 1) cL (mem_of_getLast?_eq hcL)).1
      have hBnil := (combsFrom_eq_nil_iff n (r + 1) (lo + 1)).mp hB
      have hAne : combsFrom n r (lo + 1) ≠ [] := by
        intro hcon
        rw [hcon] at hcL
        simp at hcL
      have htest : lo + (cL.length + 1) = n := by
        rw [hlen]
        rcases Nat.eq_zero_or_pos r with rfl | hr
        · omega
        · have : ¬ (0 < r ∧ n < (lo + 1) + r) := fun hc =>
            hAne ((combsFrom_eq_nil_iff n r (lo + 1)).mpr hc)
          omega
      simp [combNext, hsubnone, htest]
    · rw [List.getLast?_append_of_ne_nil _ hB] at hp
      exact ih2 p hp
  | case3 r lo hlo =>
    intro p hp
    rw [combsFrom, if_neg hlo] at hp
    simp at hp

/-- The enumerated combinations form a chain under the next-combination
advance. -/
theorem combsFrom_chain (n : ℕ) :
    ∀ (r lo : ℕ), (combsFrom n r lo).Chain' (fun a b => combNext n a = some b) := by
  intro r lo
  induction r, lo using combsFrom.induct n with
  | case1 lo => simp [combsFrom]
  | case2 r lo hlo ih1 ih2 =>
    rw [combsFrom, if_pos hlo, List.chain'_append]
    refine ⟨?_, ih2, ?_⟩
    · rw [List.chain'_map]
      exact ih1.imp (fun {a b} hab => by simp [combNext, hab])
    · intro p hp q hq
      rw [List.getLast?_map] at hp
      obtain ⟨cL, hcL, rfl⟩ :
          ∃ cL, (combsFrom n r (lo + 1)).getLast? = some cL ∧ p = lo :: cL := by
        cases hl : (combsFrom n r (lo + 1)).getLast? with
        | none => rw [hl] at hp; simp at hp
        | some x => rw [hl] at hp; exact ⟨x, rfl, by simpa using hp.symm⟩
      have hBne : combsFrom n (r + 1) (lo + 1) ≠ [] := by
        intro hcon
        rw [hcon] at hq
        simp at hq
      have hn : (lo + 1) + (r + 1) ≤ n := by
        have : ¬ (0 < r + 1 ∧ n < (lo + 1) + (r + 1)) := fun hc =>
          hBne ((combsFrom_eq_nil_iff n (r + 1) (lo + 1)).mpr hc)
        omega
      rw [combsFrom_head? n (r + 1) (lo + 1) hn] at hq
      obtain rfl : q = List.range' (lo + 1) (r + 1) := by simpa using hq.symm
      have hlen : cL.length = r := (combsFrom_mem n r (lo + 1) cL (mem_of_getLast?_eq hcL)).1
      have htest : lo + (cL.length + 1) ≠ n := by
        rw [hlen]
        omega
      simp [combNext, combsFrom_last_none n r (lo + 1) cL hcL, htest, hlen,
        resetTail_eq_range', List.range'_succ]
      omega
  | case3 r lo hlo =>
    rw [combsFrom, if_neg hlo]
    simp

/-- The enumeration is lexicographically strictly increasing. -/
theorem combsFrom_pairwise (n : ℕ) :
    ∀ (r lo : ℕ), (combsFrom n r lo).Pairwise (List.Lex (· < ·)) := by
  intro r lo
  induction r, lo using combsFrom.induct n with
  | case1 lo => simp [combsFrom]
  | case2 r lo hlo ih1 ih2 =>
    rw [combsFrom, if_pos hlo, List.pairwise_append]
    refine ⟨?_, ih2, ?_⟩
    · rw [List.pairwise_map]
      exact ih1.imp (fun {a b} hab => List.Lex.cons hab)
    · intro a ha b hb
      rw [List.mem_map] at ha
      obtain ⟨c, hc, rfl⟩ := ha
      obtain ⟨hlenb, hsortb, hbndb⟩ := combsFrom_mem n (r + 1) (lo + 1) b hb
      obtain ⟨b0, b1, rfl⟩ : ∃ b0 b1, b = b0 :: b1 := by
        cases b with
        | nil => simp at hlenb
        | cons b0 b1 => exact ⟨b0, b1, rfl⟩
      have hlt : lo < b0 := by
        have := (hbndb b0 (by simp)).1
        omega
      exact List.Lex.rel hlt
  | case3 r lo hlo =>
    rw [combsFrom, if_neg hlo]
    simp

/-- No combination repeats. -/
theorem combsFrom_nodup (n r lo : ℕ) : (combsFrom n r lo).Nodup := by
  refine (combsFrom_pairwise n r lo).imp ?_
  intro a b hab heq
  exact lex_lt_irrefl b (heq ▸ hab)

/-- C2: for `1 ≤ r ≤ n`, `Combinations` is the image under the pool of
the complete, duplicate-free, lexicographically ordered list of strictly
increasing `r`-element position vectors from `[0, n)`, and it has exactly
`C(n, r)` entries. -/
theorem combinations_spec (pool : List Int) (r : ℕ) (h1 : 1 ≤ r) (h2 : r ≤ pool.length) :
    ∃ S : List (List ℕ),
      Combinations pool r = S.map (fun idxs => idxs.map (fun i => pool.getD i 0)) ∧
      S.length = pool.length.choose r ∧
      (Combinations pool r).length = pool.length.choose r ∧
      (∀ p ∈ S, p.length = r ∧ p.Sorted (· < ·) ∧ ∀ a ∈ p, a < pool.length) ∧
      S.Nodup ∧
      S.Pairwise (List.Lex (· < ·)) := by
  set n := pool.length with hn
  have hcond : ¬ (r > n ∨ r = 0) := by omega
  have hrun : iterRun (combNext n) (fun s => s) (n.choose r) (List.range r)
      = (combsFrom n r 0).map (fun s => s) := by
    apply iterRun_eq
    · rw [combsFrom_head? n r 0 (by omega)]
      rw [List.range_eq_range']
    · exact combsFrom_chain n r 0
    · exact combsFrom_last_none n r 0
    · rw [combsFrom_length]
      simp
  have hmapid : (combsFrom n r 0).map (fun s => s) = combsFrom n r 0 := by
    simp
  refine ⟨combsFrom n r 0, ?_, by rw [combsFrom_length]; simp, ?_, ?_, combsFrom_nodup n r 0,
    combsFrom_pairwise n r 0⟩
  · rw [Combinations]
    rw [if_neg hcond, hrun, hmapid]
  · rw [Combinations]
    rw [if_neg hcond, hrun, hmapid, List.length_map, combsFrom_length]
    simp
  · intro p hp
    obtain ⟨hlen, hsort, hbnd⟩ := combsFrom_mem n r 0 p hp
    exact ⟨hlen, hsort, fun a ha => (hbnd a ha).2⟩

/-- C5: for every pool and every `r` that is `0` or exceeds the pool
length, both `Permutations` and `Combinations` return the empty result
(the embedded functions are total, so no failure of any kind occurs). -/
theorem perm_comb_degenerate (pool : List Int) (r : ℕ)
    (h : r = 0 ∨ pool.length < r) :
    Permutations pool r = [] ∧ Combinations pool r = [] := by
  have hcond : r > pool.length ∨ r = 0 := by
    rcases h with h | h
    · exact Or.inr h
    · exact Or.inl h
  constructor
  · rw [Permutations, if_pos hcond]
  · rw [Combinations, if_pos hcond]

/-! ## C1: Permutations -/

/-- Counting: `m * (m-1) * ... * (m-r+1)` permutation prefixes. -/
theorem perms_length : ∀ (r : ℕ) (avail : List ℕ),
    (perms r avail).length = avail.length.descFactorial r := by
  intro r
  induction r with
  | zero => intro avail; simp [perms]
  | succ r ih =>
    intro avail
    rw [perms]
    cases avail with
    | nil => simp
    | cons a t =>
      rw [length_flatMap_const _ (t.length.descFactorial r)]
      · rw [List.length_cons, Nat.succ_descFactorial_succ]
      · intro x hx
        rw [List.length_map, ih, List.length_erase_of_mem hx]
        simp

/-- The permutation enumeration is nonempty when `r` elements exist. -/
theorem perms_ne_nil (r : ℕ) (avail : List ℕ) (h : r ≤ avail.length) :
    perms r avail ≠ [] := by
  intro hcon
  have hlen := perms_length r avail
  rw [hcon] at hlen
  have := (Nat.descFactorial_eq_zero_iff_lt).mp hlen.symm
  omega

/-- Members of the permutation enumeration: injective `r`-vectors over
`avail`. -/
theorem perms_mem : ∀ (r : ℕ) (avail : List ℕ), avail.Nodup →
    ∀ p ∈ perms r avail, p.length = r ∧ p.Nodup ∧ ∀ a ∈ p, a ∈ avail := by
  intro r
  induction r with
  | zero =>
    intro avail _ p hp
    obtain rfl : p = [] := by simpa [perms] using hp
    simp
  | succ r ih =>
    intro avail hnd p hp
    rw [perms, List.mem_flatMap] at hp
    obtain ⟨x, hx, hp⟩ := hp
    rw [List.mem_map] at hp
    obtain ⟨c, hc, rfl⟩ := hp
    obtain ⟨hlen, hcnd, hsub⟩ := ih (avail.erase x) (hnd.erase x) c hc
    refine ⟨by simp [hlen], ?_, ?_⟩
    · rw [List.nodup_cons]
      exact ⟨fun hmem => hnd.not_mem_erase (hsub x hmem), hcnd⟩
    · intro a ha
      rcases List.mem_cons.mp ha with rfl | ha
      · exact hx
      · exact List.mem_of_mem_erase (hsub a ha)

/-- The first permutation prefix is the front of `avail`. -/
theorem perms_head? : ∀ (r : ℕ) (avail : List ℕ), r ≤ avail.length →
    (perms r avail).head? = some (avail.take r) := by
  intro r
  induction r with
  | zero => intro avail _; simp [perms]
  | succ r ih =>
    intro avail hle
    cases avail with
    | nil => simp at hle
    | cons a t =>
      rw [perms]
      have hne : (perms r ((a :: t).erase a)).map (a :: ·) ≠ [] := by
        rw [List.erase_cons_head]
        simpa using perms_ne_nil r t (by simpa using hle)
      rw [flatMap_head? (a :: t) _ a (by simp) hne, List.erase_cons_head, List.head?_map,
        ih t (by simpa using hle)]
      simp [List.take_succ_cons]

/-- After choosing the first `r` elements in order, the unused elements
are the remaining suffix. -/
theorem restOf_take : ∀ (r : ℕ) (avail : List ℕ), r ≤ avail.length →
    restOf avail (avail.take r) = avail.drop r := by
  intro r
  induction r with
  | zero => intro avail _; simp [restOf]
  | succ r ih =>
    intro avail hle
    cases avail with
    | nil => simp at hle
    | cons a t =>
      rw [List.take_succ_cons, restOf, List.erase_cons_head, ih t (by simpa using hle),
        List.drop_succ_cons]

/-- Splitting the initial cycle array. -/
theorem initCycles_succ (M r : ℕ) : initCycles M (r + 1) = M :: initCycles (M - 1) r := by
  rw [initCycles, initCycles, List.range_succ_eq_map, List.map_cons, List.map_map]
  refine congrArg₂ _ (by simp) ?_
  refine List.map_congr_left ?_
  intro i _
  simp only [Function.comp_apply]
  omega

/-- The cycle array of the initial prefix is the initial cycle array. -/
theorem cyclesOf_take : ∀ (r : ℕ) (avail : List ℕ), r ≤ avail.length →
    cyclesOf avail (avail.take r) = initCycles avail.length r := by
  intro r
  induction r with
  | zero => intro avail _; simp [cyclesOf, initCycles]
  | succ r ih =>
    intro avail hle
    cases avail with
    | nil => simp at hle
    | cons a t =>
      rw [List.take_succ_cons, cyclesOf, List.indexOf_cons_self, List.erase_cons_head,
        ih t (by simpa using hle), initCycles_succ]
      simp

/-- One cycle counter per selected position. -/
theorem cyclesOf_length : ∀ (p avail : List ℕ), (cyclesOf avail p).length = p.length := by
  intro p
  induction p with
  | nil => intro avail; rfl
  | cons x c ih =>
    intro avail
    rw [cyclesOf, List.length_cons, List.length_cons, ih]

/-- Rotating a suffix one place to the left, in decomposed form. -/
theorem rotateLeftFrom_decomp (P : List ℕ) (x : ℕ) (xs : List ℕ) :
    rotateLeftFrom (P ++ x :: xs) P.length = P ++ (xs ++ [x]) := by
  rw [rotateLeftFrom, List.take_left' rfl, List.drop_left' rfl]

/-- Swapping two positions, in decomposed form. -/
theorem swapIdx_decomp (P M S : List ℕ) (x y : ℕ) :
    swapIdx (P ++ x :: (M ++ y :: S)) P.length (P.length + (M.length + 1))
      = P ++ y :: (M ++ x :: S) := by
  have hx : (P ++ x :: (M ++ y :: S)).getD P.length 0 = x := by
    rw [List.getD_append_right _ _ _ _ (le_refl _)]
    simp
  have hy : (P ++ x :: (M ++ y :: S)).getD (P.length + (M.length + 1)) 0 = y := by
    rw [List.getD_append_right _ _ _ _ (by omega),
      show P.length + (M.length + 1) - P.length = M.length + 1 by omega,
      List.getD_cons_succ, List.getD_append_right _ _ _ _ (le_refl _)]
    simp
  rw [swapIdx, hx, hy, List.set_append]
  rw [if_neg (by omega)]
  rw [Nat.sub_self, List.set_cons_zero, List.set_append, if_neg (by omega),
    show P.length + (M.length + 1) - P.length = M.length + 1 by omega,
    List.set_cons_succ, List.set_append, if_neg (by omega), Nat.sub_self,
    List.set_cons_zero]

/-- Degenerate permutation enumeration. -/
theorem perms_eq_nil (r : ℕ) (avail : List ℕ) (h : avail.length < r) :
    perms r avail = [] := by
  have hlen := perms_length r avail
  rw [Nat.descFactorial_eq_zero_iff_lt.mpr h] at hlen
  exact List.length_eq_zero.mp hlen

/-- When the scan starts from the state of the last permutation drawn
from `avail`, every cycle counter carries: the index segment is restored
to `avail` in its original order, the cycle segment to its initial
values, and the scan reports exhaustion. -/
theorem perms_last_scan : ∀ (r : ℕ) (avail pre cL : List ℕ), avail.Nodup →
    (perms r avail).getLast? = some cL →
    permScanSeg (pre.length + avail.length) pre.length
        (pre ++ cL ++ restOf avail cL) (cyclesOf avail cL)
      = (pre ++ avail, initCycles avail.length r, false) := by
  intro r
  induction r with
  | zero =>
    intro avail pre cL _ hlast
    obtain rfl : cL = [] := by simpa [perms] using hlast
    simp [permScanSeg, restOf, cyclesOf, initCycles]
  | succ r ih =>
    intro avail pre p hnd hlast
    by_cases hle : r + 1 ≤ avail.length
    · have hne : avail ≠ [] := by
        intro hcon
        rw [hcon] at hle
        simp at hle
      have hm1 : 1 ≤ avail.length := by
        have := List.length_pos.mpr hne
        omega
      set xL := avail.getLast hne with hxLdef
      have hxLlast : avail.getLast? = some xL := List.getLast?_eq_getLast avail hne
      have hxLmem : xL ∈ avail := List.getLast_mem hne
      have hblocks : ∀ x ∈ avail, (perms r (avail.erase x)).map (x :: ·) ≠ [] := by
        intro x hx
        rw [Ne, List.map_eq_nil_iff]
        apply perms_ne_nil
        rw [List.length_erase_of_mem hx]
        omega
      rw [perms, flatMap_getLast? avail _ hblocks xL hxLlast, List.getLast?_map] at hlast
      obtain ⟨cL, hcL, rfl⟩ :
          ∃ cL, (perms r (avail.erase xL)).getLast? = some cL ∧ p = xL :: cL := by
        cases hl : (perms r (avail.erase xL)).getLast? with
        | none => rw [hl] at hlast; simp at hlast
        | some c => rw [hl] at hlast; exact ⟨c, rfl, by simpa using hlast.symm⟩
      have hElen : (avail.erase xL).length = avail.length - 1 :=
        List.length_erase_of_mem hxLmem
      have heq1 := ih (avail.erase xL) (pre ++ [xL]) cL (hnd.erase xL) hcL
      rw [List.length_append, List.length_singleton, hElen] at heq1
      rw [show pre.length + 1 + (avail.length - 1) = pre.length + avail.length by omega]
        at heq1
      have hindeq : pre ++ (xL :: cL) ++ restOf avail (xL :: cL)
          = (pre ++ [xL]) ++ cL ++ restOf (avail.erase xL) cL := by
        rw [restOf]
        simp
      have hidx : avail.indexOf xL = avail.length - 1 := by
        have hlt : avail.length - 1 < avail.length := by omega
        have : xL = avail[avail.length - 1] := by
          rw [hxLdef, List.getLast_eq_getElem]
        rw [this]
        exact List.indexOf_getElem hnd _ hlt
      have hcyc : cyclesOf avail (xL :: cL)
          = 1 :: cyclesOf (avail.erase xL) cL := by
        rw [cyclesOf, hidx]
        congr 1
        omega
      rw [hindeq, hcyc, permScanSeg, heq1]
      simp only []
      have hEdrop : avail.erase xL = avail.dropLast := by
        conv_lhs => rw [← List.dropLast_append_getLast hne]
        have hnotmem : xL ∉ avail.dropLast := by
          intro hmem
          have hsplit := hnd
          conv at hsplit => rw [← List.dropLast_append_getLast hne]
          rw [List.nodup_append] at hsplit
          exact hsplit.2.2 hmem (by simp)
        rw [List.erase_append_right _ hnotmem]
        simp
      have hrot : rotateLeftFrom ((pre ++ [xL]) ++ avail.erase xL) pre.length
          = pre ++ avail := by
        rw [show (pre ++ [xL]) ++ avail.erase xL = pre ++ (xL :: avail.erase xL) by simp,
          rotateLeftFrom_decomp, hEdrop]
        rw [show avail.dropLast ++ [xL] = avail from List.dropLast_append_getLast hne]
      simp only [show (1 : ℕ) - 1 = 0 from rfl, if_pos rfl, hrot]
      rw [show pre.length + avail.length - pre.length = avail.length by omega,
        show avail.length = (avail.length - 1) + 1 by omega, initCycles_succ]
      simp
    · rw [perms_eq_nil (r + 1) avail (by omega)] at hlast
      simp at hlast

/-- Adjacent permutations drawn from `avail` are related by one advance
of the scan: starting from the state of a permutation, the scan produces
exactly the state of the next permutation and reports success. -/
theorem perms_chain_scan : ∀ (r : ℕ) (avail pre : List ℕ), avail.Nodup →
    r ≤ avail.length →
    (perms r avail).Chain' (fun p q =>
      permScanSeg (pre.length + avail.length) pre.length
          (pre ++ p ++ restOf avail p) (cyclesOf avail p)
        = (pre ++ q ++ restOf avail q, cyclesOf avail q, true)) := by
  intro r
  induction r with
  | zero => intro avail pre _ _; simp [perms]
  | succ r ih =>
    intro avail pre hnd hle
    have hm1 : 1 ≤ avail.length := by omega
    rw [perms]
    apply chain'_flatMap
    · intro x hx
      rw [Ne, List.map_eq_nil_iff]
      apply perms_ne_nil
      rw [List.length_erase_of_mem hx]
      omega
    · intro x hx
      rw [List.chain'_map]
      have hsub := ih (avail.erase x) (pre ++ [x]) (hnd.erase x)
        (by rw [List.length_erase_of_mem hx]; omega)
      rw [List.length_append, List.length_singleton, List.length_erase_of_mem hx,
        show pre.length + 1 + (avail.length - 1) = pre.length + avail.length by omega]
        at hsub
      refine hsub.imp ?_
      intro a b hab
      have hinda : pre ++ (x :: a) ++ restOf avail (x :: a)
          = (pre ++ [x]) ++ a ++ restOf (avail.erase x) a := by
        rw [restOf]
        simp
      have hindb : pre ++ (x :: b) ++ restOf avail (x :: b)
          = (pre ++ [x]) ++ b ++ restOf (avail.erase x) b := by
        rw [restOf]
        simp
      rw [hinda, hindb, cyclesOf, cyclesOf, permScanSeg, hab]
    · rw [List.chain'_iff_get]
      intro i hi
      simp only [List.get_eq_getElem]
      intro p q hp hq
      have him : i + 1 < avail.length := by omega
      have hxmem : avail[i] ∈ avail := List.getElem_mem _
      have hymem : avail[i + 1] ∈ avail := List.getElem_mem _
      obtain ⟨A, x, y, B, hdecomp, hAlen, hxeq, hyeq⟩ :
          ∃ A x y B, avail = A ++ x :: y :: B ∧ A.length = i ∧
            avail[i] = x ∧ avail[i + 1] = y := by
        refine ⟨avail.take i, avail[i], avail[i + 1], avail.drop (i + 1 + 1), ?_, ?_, rfl, rfl⟩
        · conv_lhs => rw [← List.take_append_drop i avail]
          rw [List.drop_eq_getElem_cons (show i < avail.length by omega),
            List.drop_eq_getElem_cons (show i + 1 < avail.length by omega)]
        · rw [List.length_take]
          omega
      rw [hxeq] at hp hxmem
      rw [hyeq] at hq hymem
      have hixgetElem := List.indexOf_getElem hnd i (show i < avail.length by omega)
      have hiygetElem := List.indexOf_getElem hnd (i + 1) (show i + 1 < avail.length by omega)
      rw [hxeq] at hixgetElem
      rw [hyeq] at hiygetElem
      have hsplit := hnd
      rw [hdecomp, List.nodup_append, List.nodup_cons, List.nodup_cons] at hsplit
      obtain ⟨hndA, ⟨hxnotin, _, _⟩, hdisj⟩ := hsplit
      have hxA : x ∉ A := fun hmem => hdisj hmem (List.mem_cons_self _ _)
      have hyA : y ∉ A := fun hmem =>
        hdisj hmem (List.mem_cons_of_mem _ (List.mem_cons_self _ _))
      have hxy : x ≠ y := fun heq => hxnotin (heq ▸ List.mem_cons_self _ _)
      have hEx : avail.erase x = A ++ y :: B := by
        rw [hdecomp, List.erase_append_right _ hxA, List.erase_cons_head]
      have hEy : avail.erase y = A ++ x :: B := by
        rw [hdecomp, List.erase_append_right _ hyA,
          List.erase_cons_tail (by simp [hxy]), List.erase_cons_head]
      have hExlen : (avail.erase x).length = avail.length - 1 :=
        List.length_erase_of_mem hxmem
      have hEylen : (avail.erase y).length = avail.length - 1 :=
        List.length_erase_of_mem hymem
      rw [List.getLast?_map] at hp
      obtain ⟨cL, hcL, rfl⟩ :
          ∃ cL, (perms r (avail.erase x)).getLast? = some cL ∧ p = x :: cL := by
        cases hl : (perms r (avail.erase x)).getLast? with
        | none => rw [hl] at hp; simp at hp
        | some c => rw [hl] at hp; exact ⟨c, rfl, by simpa using hp.symm⟩
      rw [List.head?_map, perms_head? r _ (by rw [hEylen]; omega)] at hq
      obtain rfl : q = y :: (avail.erase y).take r := by
        simpa using hq.symm
      have heq1 := perms_last_scan r (avail.erase x) (pre ++ [x]) cL
        (hnd.erase _) hcL
      rw [List.length_append, List.length_singleton, hExlen,
        show pre.length + 1 + (avail.length - 1) = pre.length + avail.length by omega]
        at heq1
      have hinda : pre ++ (x :: cL) ++ restOf avail (x :: cL)
          = (pre ++ [x]) ++ cL ++ restOf (avail.erase x) cL := by
        rw [restOf]
        simp
      have hcyca : cyclesOf avail (x :: cL)
          = (avail.length - i) :: cyclesOf (avail.erase x) cL := by
        rw [cyclesOf, hixgetElem]
      have hindb : pre ++ (y :: (avail.erase y).take r)
            ++ restOf avail (y :: (avail.erase y).take r)
          = pre ++ y :: avail.erase y := by
        rw [restOf, restOf_take r _ (by rw [hEylen]; omega)]
        simp [List.take_append_drop]
      have hcycb : cyclesOf avail (y :: (avail.erase y).take r)
          = (avail.length - (i + 1)) :: initCycles (avail.length - 1) r := by
        rw [cyclesOf, hiygetElem, cyclesOf_take r _ (by rw [hEylen]; omega), hEylen]
      have hswap : swapIdx ((pre ++ [x]) ++ avail.erase x) pre.length
            (pre.length + avail.length - (avail.length - i - 1))
          = pre ++ y :: avail.erase y := by
        rw [hEx, hEy]
        rw [show (pre ++ [x]) ++ (A ++ y :: B) = pre ++ x :: (A ++ y :: B) by simp]
        rw [show pre.length + avail.length - (avail.length - i - 1)
            = pre.length + (A.length + 1) by rw [hAlen]; omega]
        exact swapIdx_decomp pre A B x y
      rw [hinda, hcyca, hindb, hcycb, permScanSeg, heq1]
      simp only []
      rw [if_neg (show ¬(avail.length - i - 1 = 0) by omega)]
      rw [hswap, show avail.length - i - 1 = avail.length - (i + 1) by omega]

/-- Over a strictly sorted base list, the enumeration is lexicographically
strictly increasing. -/
theorem perms_pairwise : ∀ (r : ℕ) (avail : List ℕ), avail.Pairwise (· < ·) →
    (perms r avail).Pairwise (List.Lex (· < ·)) := by
  intro r
  induction r with
  | zero => intro avail _; simp [perms]
  | succ r ih =>
    intro avail hsorted
    rw [perms, List.flatMap_def, List.pairwise_flatten]
    constructor
    · intro bl hbl
      rw [List.mem_map] at hbl
      obtain ⟨xx, _, rfl⟩ := hbl
      rw [List.pairwise_map]
      exact (ih _ (List.Pairwise.sublist (List.erase_sublist _ _) hsorted)).imp
        (fun {a b} hab => List.Lex.cons hab)
    · rw [List.pairwise_map]
      refine List.Pairwise.imp ?_ hsorted
      intro x y hxy a ha b hb
      rw [List.mem_map] at ha hb
      obtain ⟨c, _, rfl⟩ := ha
      obtain ⟨d, _, rfl⟩ := hb
      exact List.Lex.rel hxy

/-- No permutation prefix repeats. -/
theorem perms_nodup (r : ℕ) (avail : List ℕ) (h : avail.Pairwise (· < ·)) :
    (perms r avail).Nodup := by
  refine (perms_pairwise r avail h).imp ?_
  intro a b hab heq
  exact lex_lt_irrefl b (heq ▸ hab)

/-- The complete run of the Go permutation state machine produces exactly
the lexicographic enumeration of index prefixes, mapped through the
pool. -/
theorem permutations_run (pool : List Int) (r : ℕ) (h1 : 1 ≤ r) (h2 : r ≤ pool.length) :
    Permutations pool r = (perms r (List.range pool.length)).map
      (fun idxs => idxs.map (fun i => pool.getD i 0)) := by
  set n := pool.length with hn
  have hcond : ¬(r > n ∨ r = 0) := by omega
  have hrangend : (List.range n).Nodup := List.nodup_range n
  have hrl : r ≤ (List.range n).length := by
    rw [List.length_range]
    exact h2
  have hrun := iterRun_eq (permStep n) (fun st => st.1.take st.2.length)
    ((perms r (List.range n)).map
      (fun p => (p ++ restOf (List.range n) p, cyclesOf (List.range n) p)))
    (List.range n, initCycles n r) (n.descFactorial r) ?_ ?_ ?_ ?_
  · rw [Permutations, if_neg hcond, hrun, List.map_map, List.map_map]
    refine List.map_congr_left ?_
    intro p hp
    have hplen : p.length = r := (perms_mem r _ hrangend p hp).1
    simp only [Function.comp_apply]
    rw [cyclesOf_length, List.take_left' rfl]
  · rw [List.head?_map, perms_head? r _ hrl]
    simp only [Option.map_some']
    rw [restOf_take r _ hrl, List.take_append_drop, cyclesOf_take r _ hrl,
      List.length_range]
  · rw [List.chain'_map]
    refine (perms_chain_scan r (List.range n) [] hrangend hrl).imp ?_
    intro a b hab
    simp only [List.nil_append, List.length_nil, List.length_range, Nat.zero_add] at hab
    simp [permStep, hab]
  · intro s hs
    rw [List.getLast?_map] at hs
    obtain ⟨pL, hpL, rfl⟩ :
        ∃ pL, (perms r (List.range n)).getLast? = some pL ∧
          s = (pL ++ restOf (List.range n) pL, cyclesOf (List.range n) pL) := by
      cases hl : (perms r (List.range n)).getLast? with
      | none => rw [hl] at hs; simp at hs
      | some c => rw [hl] at hs; exact ⟨c, rfl, by simpa using hs.symm⟩
    have heq := perms_last_scan r (List.range n) [] pL hrangend hpL
    simp only [List.nil_append, List.length_nil, List.length_range, Nat.zero_add] at heq
    simp [permStep, heq]
  · rw [List.length_map, perms_length, List.length_range]

/-- C1: for `1 ≤ r ≤ n`, `Permutations` is the image under the pool of
the complete list of injective `r`-element position vectors over
`[0, n)` — tuples are identified by their underlying position vectors, as
the code treats elements as unique by position — with no duplicate
position vector, in lexicographic order of the position vectors, and with
exactly `n!/(n-r)!` entries. -/
theorem permutations_spec (pool : List Int) (r : ℕ) (h1 : 1 ≤ r) (h2 : r ≤ pool.length) :
    ∃ S : List (List ℕ),
      Permutations pool r = S.map (fun idxs => idxs.map (fun i => pool.getD i 0)) ∧
      S.length = pool.length.factorial / (pool.length - r).factorial ∧
      (Permutations pool r).length = pool.length.factorial / (pool.length - r).factorial ∧
      (∀ p ∈ S, p.length = r ∧ p.Nodup ∧ ∀ a ∈ p, a < pool.length) ∧
      S.Nodup ∧
      S.Pairwise (List.Lex (· < ·)) := by
  have hrun := permutations_run pool r h1 h2
  have hlen : (perms r (List.range pool.length)).length
      = pool.length.factorial / (pool.length - r).factorial := by
    rw [perms_length, List.length_range, Nat.descFactorial_eq_div h2]
  refine ⟨perms r (List.range pool.length), hrun, hlen, ?_, ?_,
    perms_nodup r _ (List.pairwise_lt_range _), perms_pairwise r _ (List.pairwise_lt_range _)⟩
  · rw [hrun, List.length_map, hlen]
  · intro p hp
    obtain ⟨ha, hb, hc⟩ := perms_mem r _ (List.nodup_range _) p hp
    exact ⟨ha, hb, fun a hmem => List.mem_range.mp (hc a hmem)⟩

/-! ## Witnesses -/

/-- Witness for C1 at the documented example `Permutations [1,2,3] 3`. -/
theorem permutations_spec_witness :
    (1 ≤ 3 ∧ 3 ≤ ([1, 2, 3] : List Int).length) ∧
    (∃ S : List (List ℕ),
      Permutations [1, 2, 3] 3 = S.map (fun idxs => idxs.map (fun i =>
        ([1, 2, 3] : List Int).getD i 0)) ∧
      S.length = ([1, 2, 3] : List Int).length.factorial
        / (([1, 2, 3] : List Int).length - 3).factorial ∧
      (Permutations [1, 2, 3] 3).length = ([1, 2, 3] : List Int).length.factorial
        / (([1, 2, 3] : List Int).length - 3).factorial ∧
      (∀ p ∈ S, p.length = 3 ∧ p.Nodup ∧ ∀ a ∈ p, a < ([1, 2, 3] : List Int).length) ∧
      S.Nodup ∧
      S.Pairwise (List.Lex (· < ·))) :=
  ⟨⟨by decide, by decide⟩, permutations_spec [1, 2, 3] 3 (by decide) (by decide)⟩

/-- Witness for C2 at the documented example `Combinations [1,2,3,4,5] 4`. -/
theorem combinations_spec_witness :
    (1 ≤ 4 ∧ 4 ≤ ([1, 2, 3, 4, 5] : List Int).length) ∧
    (∃ S : List (List ℕ),
      Combinations [1, 2, 3, 4, 5] 4 = S.map (fun idxs => idxs.map (fun i =>
        ([1, 2, 3, 4, 5] : List Int).getD i 0)) ∧
      S.length = ([1, 2, 3, 4, 5] : List Int).length.choose 4 ∧
      (Combinations [1, 2, 3, 4, 5] 4).length = ([1, 2, 3, 4, 5] : List Int).length.choose 4 ∧
      (∀ p ∈ S, p.length = 4 ∧ p.Sorted (· < ·) ∧
        ∀ a ∈ p, a < ([1, 2, 3, 4, 5] : List Int).length) ∧
      S.Nodup ∧
      S.Pairwise (List.Lex (· < ·))) :=
  ⟨⟨by decide, by decide⟩, combinations_spec [1, 2, 3, 4, 5] 4 (by decide) (by decide)⟩

/-- Witness for C3 at the documented example `Product [[1,2],[3,4]]`. -/
theorem product_spec_witness :
    (([[1, 2], [3, 4]] : List (List Int)) ≠ []) ∧
    (Product [[1, 2], [3, 4]]).length
      = (([[1, 2], [3, 4]] : List (List Int)).map List.length).prod :=
  ⟨by decide, (product_spec [[1, 2], [3, 4]] (by decide)).1⟩

/-- Witness for C5 at `r = 3`, a pool of length 2. -/
theorem perm_comb_degenerate_witness :
    ((3 : ℕ) = 0 ∨ ([5, 7] : List Int).length < 3) ∧
    (Permutations [5, 7] 3 = [] ∧ Combinations [5, 7] 3 = []) :=
  ⟨by decide, perm_comb_degenerate [5, 7] 3 (by decide)⟩

/-- Witness for C8 at the documented example `IZipLongest 0 [[10,20,30],[1,2]]`. -/
theorem izip_longest_spec_witness :
    (([[10, 20, 30], [1, 2]] : List (List Int)) ≠ []) ∧
    (IZipLongest 0 [[10, 20, 30], [1, 2]]).length
      = (([[10, 20, 30], [1, 2]] : List (List Int)).map List.length).foldr max 0 :=
  ⟨by decide, (izip_longest_spec 0 [[10, 20, 30], [1, 2]] (by decide)).1⟩

end Itertools
